import Mathlib

/-!
Verification of `src/v2/nano_engine/object.h` (`NanoObject` and
`NanoObjectList`): a positioned rectangular entity and an intrusive
singly-linked collection of such entities sharing one invalidation
target ("tiler").

Shallow embedding conventions:
* `lcdint_t` (declared in the absent `lcd_hal/io.h`) is modelled as `Int`.
* `NanoPoint` / `NanoRect` (absent `canvas/point.h`, `canvas/rect.h`) are
  modelled from the spec: two integer coordinates, componentwise
  arithmetic; a rect is an inclusive pair of corner points with
  `width = p2.x - p1.x + 1`.
* The base-class fields `m_next` / `m_tiler` and the trivial accessors
  `setTiler` / `hasTiler` / `getTiler` (absent `tiler.h`) are modelled from
  the spec's data model: a nullable link to the next entity and a nullable
  invalidation-target reference.
* Pointers are object identifiers (`Nat`); `nullptr` is `Option.none`.
  The heap is an association list from identifiers to object records; the
  collection's operations never allocate, matching the source.
* A call `tiler.refreshWorld(rect)` is an observable event, recorded in an
  event trace `(target identifier, rect)`.
* Unbounded pointer walks of the source (`getPrev`, `has`, `remove`,
  `update`/`refresh`/`draw`) are modelled with explicit fuel
  `heap.length + 1`; under the well-formedness invariant (finite acyclic
  member chain of valid identifiers) the fuel is never exhausted, which is
  proved where used.
-/

/-- Modelled from the spec: the display coordinate type `lcdint_t` comes from
the absent `lcd_hal/io.h`; the spec fixes no bit width, so coordinates are
unbounded integers. -/
abbrev lcdint_t := Int

/-- Modelled from the spec: `NanoPoint` from the absent `canvas/point.h`,
two coordinates with componentwise arithmetic. -/
structure NanoPoint where
  x : lcdint_t
  y : lcdint_t
deriving DecidableEq

instance : Add NanoPoint := ⟨fun a b => ⟨a.x + b.x, a.y + b.y⟩⟩

instance : Neg NanoPoint := ⟨fun a => ⟨-a.x, -a.y⟩⟩

@[simp] theorem NanoPoint.add_x (a b : NanoPoint) : (a + b).x = a.x + b.x := rfl

@[simp] theorem NanoPoint.add_y (a b : NanoPoint) : (a + b).y = a.y + b.y := rfl

@[simp] theorem NanoPoint.neg_x (a : NanoPoint) : (-a).x = -a.x := rfl

@[simp] theorem NanoPoint.neg_y (a : NanoPoint) : (-a).y = -a.y := rfl

/-- Modelled from the spec: `NanoRect` from the absent `canvas/rect.h`,
corner points `p1` (top-left) and `p2` (bottom-right), both inclusive. -/
structure NanoRect where
  p1 : NanoPoint
  p2 : NanoPoint
deriving DecidableEq

/-- Modelled from the spec: `NanoRect::width` is `p2.x - p1.x + 1`. -/
def NanoRect.width (r : NanoRect) : lcdint_t := r.p2.x - r.p1.x + 1

/-- Modelled from the spec: `NanoRect::height` is `p2.y - p1.y + 1`. -/
def NanoRect.height (r : NanoRect) : lcdint_t := r.p2.y - r.p1.y + 1

/-- Arithmetic right shift by one bit: on a signed two's-complement
`lcdint_t`, the source expression `v >> 1` rounds toward negative infinity,
i.e. it is floor division by 2. -/
def shr1 (a : lcdint_t) : lcdint_t := Int.fdiv a 2

/-- One `NanoObject`: its own `m_rect` plus the base-class (`tiler.h`)
fields `m_tiler` (nullable invalidation-target reference, modelled as a
target identifier) and `m_next` (nullable intrusive link, modelled as an
object identifier). -/
structure NanoObject where
  m_rect : NanoRect
  m_tiler : Option Nat
  m_next : Option Nat
deriving DecidableEq

/-- A recorded `refreshWorld` call: which target was invoked, with which
rectangle. -/
abbrev RefreshEvent := Nat × NanoRect

namespace NanoObject

/-- `NanoObject::width()`: `m_rect.width()`. -/
def width (o : NanoObject) : lcdint_t := o.m_rect.width

/-- `NanoObject::height()`: `m_rect.height()`. -/
def height (o : NanoObject) : lcdint_t := o.m_rect.height

/-- `NanoObject::x()`: `m_rect.p1.x`. -/
def x (o : NanoObject) : lcdint_t := o.m_rect.p1.x

/-- `NanoObject::y()`: `m_rect.p1.y`. -/
def y (o : NanoObject) : lcdint_t := o.m_rect.p1.y

/-- `NanoObject::getPosition()`: `m_rect.p1`. -/
def getPosition (o : NanoObject) : NanoPoint := o.m_rect.p1

/-- `NanoObject::getRect()`: `m_rect`. -/
def getRect (o : NanoObject) : NanoRect := o.m_rect

/-- `NanoObject::bottom()`: `{ (p1.x + p2.x) >> 1, p2.y }`. -/
def bottom (o : NanoObject) : NanoPoint :=
  ⟨shr1 (o.m_rect.p1.x + o.m_rect.p2.x), o.m_rect.p2.y⟩

/-- `NanoObject::top()`: `{ (p1.x + p2.x) >> 1, p1.y }`. -/
def top (o : NanoObject) : NanoPoint :=
  ⟨shr1 (o.m_rect.p1.x + o.m_rect.p2.x), o.m_rect.p1.y⟩

/-- `NanoObject::left()`: `{ p1.x, (p1.y + p2.y) >> 1 }`. -/
def left (o : NanoObject) : NanoPoint :=
  ⟨o.m_rect.p1.x, shr1 (o.m_rect.p1.y + o.m_rect.p2.y)⟩

/-- `NanoObject::right()`: `{ p2.x, (p1.y + p2.y) >> 1 }`. -/
def right (o : NanoObject) : NanoPoint :=
  ⟨o.m_rect.p2.x, shr1 (o.m_rect.p1.y + o.m_rect.p2.y)⟩

/-- `NanoObject::center()`: `{ (p1.x + p2.x) >> 1, (p1.y + p2.y) >> 1 }`. -/
def center (o : NanoObject) : NanoPoint :=
  ⟨shr1 (o.m_rect.p1.x + o.m_rect.p2.x), shr1 (o.m_rect.p1.y + o.m_rect.p2.y)⟩

/-- `NanoObject::setPos(p)`: `m_rect = { p, { p.x + p2.x - p1.x,
p.y + p2.y - p1.y } }`. No refresh call. -/
def setPos (o : NanoObject) (p : NanoPoint) : NanoObject :=
  { o with m_rect := ⟨p, ⟨p.x + o.m_rect.p2.x - o.m_rect.p1.x,
                          p.y + o.m_rect.p2.y - o.m_rect.p1.y⟩⟩ }

/-- `NanoObject::setSize(size)`: `p2.x = p1.x + size.x - 1;
p2.y = p1.y + size.y - 1`. No refresh call. -/
def setSize (o : NanoObject) (size : NanoPoint) : NanoObject :=
  { o with m_rect := ⟨o.m_rect.p1, ⟨o.m_rect.p1.x + size.x - 1,
                                    o.m_rect.p1.y + size.y - 1⟩⟩ }

/-- `NanoObject::refresh()`: if a tiler is attached, call
`getTiler().refreshWorld(m_rect)`. The function returns the emitted
`refreshWorld` calls (the object's state is untouched). -/
def refreshCalls (o : NanoObject) : List RefreshEvent :=
  match o.m_tiler with
  | some t => [(t, o.m_rect)]
  | none => []

/-- `NanoObject::moveTo(p)`: `refresh(); setPos(p); refresh();`. -/
def moveTo (o : NanoObject) (p : NanoPoint) : NanoObject × List RefreshEvent :=
  (o.setPos p, o.refreshCalls ++ (o.setPos p).refreshCalls)

/-- `NanoObject::moveBy(p)`: `refresh(); setPos(m_rect.p1 + p); refresh();`. -/
def moveBy (o : NanoObject) (p : NanoPoint) : NanoObject × List RefreshEvent :=
  (o.setPos (o.m_rect.p1 + p),
   o.refreshCalls ++ (o.setPos (o.m_rect.p1 + p)).refreshCalls)

/-- `NanoObject::resize(size)`: `refresh(); setSize(size); refresh();`. -/
def resize (o : NanoObject) (size : NanoPoint) : NanoObject × List RefreshEvent :=
  (o.setSize size, o.refreshCalls ++ (o.setSize size).refreshCalls)

/-- `NanoObject::setSize(size)` as a traced operation: it performs no
refresh call, so its event trace is empty. -/
def setSizeOp (o : NanoObject) (size : NanoPoint) : NanoObject × List RefreshEvent :=
  (o.setSize size, [])

end NanoObject

/-! ## The heap of objects and the intrusive list -/

/-- The heap: a finite association list from object identifiers to objects.
The collection never allocates or frees, so the key set is fixed. -/
abbrev Heap := List (Nat × NanoObject)

/-- The identifiers present in the heap. -/
def keys (h : Heap) : List Nat := h.map Prod.fst

/-- Dereference an object identifier. A dangling identifier yields a dummy
object; under the well-formedness invariant every chain identifier is in
`keys`, so the dummy is never reached. -/
def hget (h : Heap) (i : Nat) : NanoObject :=
  match h.find? (fun e => e.1 == i) with
  | some e => e.2
  | none => ⟨⟨⟨0, 0⟩, ⟨0, 0⟩⟩, none, none⟩

/-- Write through an object identifier (a store to a field of `*i`). -/
def hset (h : Heap) (i : Nat) (o : NanoObject) : Heap :=
  h.map (fun e => if e.1 = i then (i, o) else e)

/-- `NanoObject::refresh()` invoked on the object behind identifier `i`. -/
def refreshAt (h : Heap) (i : Nat) : List RefreshEvent :=
  (hget h i).refreshCalls

/-- One `NanoObjectList` (which is itself a `NanoObject`): its `m_first`
member link, the inherited `m_tiler` and `m_rect`, together with the heap
holding the member objects. -/
structure ListSt where
  heap : Heap
  m_first : Option Nat
  m_tiler : Option Nat
  m_rect : NanoRect
deriving DecidableEq

/-- Fuel that bounds every pointer walk: one more than the heap size. Under
well-formedness the member chain is shorter than this. -/
def fuelOf (s : ListSt) : Nat := s.heap.length + 1

/-- `NanoObjectList::getNext(prev)`: `prev ? prev->m_next : m_first`. -/
def getNext (s : ListSt) (prev : Option Nat) : Option Nat :=
  match prev with
  | some p => (hget s.heap p).m_next
  | none => s.m_first

/-- Loop body of `NanoObjectList::getPrev(curr)`: start at `m_first`, stop
at the first node whose `m_next` equals `curr`, return null when the chain
ends. Fuel exhaustion (unreachable under well-formedness) returns null. -/
def getPrevAux (h : Heap) (curr : Option Nat) : Nat → Option Nat → Option Nat
  | 0, _ => none
  | fuel + 1, p =>
    match p with
    | none => none
    | some i =>
      if (hget h i).m_next = curr then some i
      else getPrevAux h curr fuel (hget h i).m_next

/-- `NanoObjectList::getPrev(curr)`. -/
def getPrev (s : ListSt) (curr : Option Nat) : Option Nat :=
  getPrevAux s.heap curr (fuelOf s) s.m_first

/-- Loop body of `NanoObjectList::has(object)`:
`p = getNext(); while (p && p != object) p = getNext(p); return p != nullptr`.
Fuel exhaustion (unreachable under well-formedness) returns false. -/
def hasAux (h : Heap) (object : Option Nat) : Nat → Option Nat → Bool
  | 0, _ => false
  | fuel + 1, p =>
    match p with
    | none => false
    | some i =>
      if some i = object then true
      else hasAux h object fuel (hget h i).m_next

/-- `NanoObjectList::has(object)`. -/
def hasObj (s : ListSt) (object : Option Nat) : Bool :=
  hasAux s.heap object (fuelOf s) s.m_first

/-- The sequence of members visited by the traversal loops of
`NanoObjectList::update()`, `::refresh()` and `::draw()` (head to tail).
`NanoObject::draw()` and `::update()` are no-ops, so the visiting order is
the observable; it is also the draw order (z-order). -/
def traverseAux (h : Heap) : Nat → Option Nat → List Nat
  | 0, _ => []
  | fuel + 1, p =>
    match p with
    | none => []
    | some i => i :: traverseAux h fuel (hget h i).m_next

/-- Member visiting order of `update()`/`refresh()`/`draw()`. -/
def drawOrder (s : ListSt) : List Nat :=
  traverseAux s.heap (fuelOf s) s.m_first

/-- Loop body of `NanoObjectList::refresh()`: for each member `p`,
`p->setTiler(this->m_tiler); p->refresh();`. Returns the updated heap and
the emitted `refreshWorld` calls in order. -/
def listRefreshAux (h : Heap) (lt : Option Nat) : Nat → Option Nat → Heap × List RefreshEvent
  | 0, _ => (h, [])
  | fuel + 1, p =>
    match p with
    | none => (h, [])
    | some i =>
      let h1 := hset h i { hget h i with m_tiler := lt }
      let ev := refreshAt h1 i
      let r := listRefreshAux h1 lt fuel (hget h1 i).m_next
      (r.1, ev ++ r.2)

/-- `NanoObjectList::refresh()`. -/
def listRefresh (s : ListSt) : ListSt × List RefreshEvent :=
  let r := listRefreshAux s.heap s.m_tiler (fuelOf s) s.m_first
  ({ s with heap := r.1 }, r.2)

/-- `NanoObjectList::add(object)`:
fail on null or already-present; otherwise `object->m_next = nullptr;
object->setTiler(m_tiler);` then append at the tail (`m_first` when empty,
else `getPrev()->m_next`), then `object->refresh()`. The unreachable case
where the chain is non-empty but `getPrev()` finds no tail (impossible for
a finite chain; a null dereference in the source) is modelled as failure. -/
def add (s : ListSt) (object : Option Nat) : ListSt × List RefreshEvent × Bool :=
  match object with
  | none => (s, [], false)
  | some o =>
    if hasObj s (some o) then (s, [], false)
    else
      let h1 := hset s.heap o { hget s.heap o with m_next := none }
      let h2 := hset h1 o { hget h1 o with m_tiler := s.m_tiler }
      match s.m_first with
      | none => ({ s with heap := h2, m_first := some o }, refreshAt h2 o, true)
      | some _ =>
        match getPrevAux h2 none (h2.length + 1) s.m_first with
        | some last =>
          let h3 := hset h2 last { hget h2 last with m_next := some o }
          ({ s with heap := h3 }, refreshAt h3 o, true)
        | none => (s, [], false)

/-- `NanoObjectList::insert(object)`:
fail on null or already-present; otherwise `object->m_next = m_first;
object->m_tiler = m_tiler; m_first = object; object->refresh();`. -/
def insertObj (s : ListSt) (object : Option Nat) : ListSt × List RefreshEvent × Bool :=
  match object with
  | none => (s, [], false)
  | some o =>
    if hasObj s (some o) then (s, [], false)
    else
      let h1 := hset s.heap o { hget s.heap o with m_next := s.m_first }
      let h2 := hset h1 o { hget h1 o with m_tiler := s.m_tiler }
      ({ s with heap := h2, m_first := some o }, refreshAt h2 o, true)

/-- Loop body of the search branch of `NanoObjectList::remove(object)`:
`p = m_first; while (p->m_next) { if (p->m_next == object) { object->refresh();
p->m_next = object->m_next; object->m_next = nullptr; object->m_tiler =
nullptr; return true; } p = p->m_next; }`. Fuel exhaustion (unreachable
under well-formedness) reports not-found. -/
def removeAux (h : Heap) (o : Nat) : Nat → Nat → Heap × List RefreshEvent × Bool
  | 0, _ => (h, [], false)
  | fuel + 1, p =>
    match (hget h p).m_next with
    | none => (h, [], false)
    | some q =>
      if q = o then
        let ev := refreshAt h o
        let h1 := hset h p { hget h p with m_next := (hget h o).m_next }
        let h2 := hset h1 o { hget h1 o with m_next := none }
        let h3 := hset h2 o { hget h2 o with m_tiler := none }
        (h3, ev, true)
      else removeAux h o fuel q

/-- `NanoObjectList::remove(object)`. -/
def remove (s : ListSt) (object : Option Nat) : ListSt × List RefreshEvent × Bool :=
  match s.m_first, object with
  | none, _ => (s, [], false)
  | some _, none => (s, [], false)
  | some f, some o =>
    if o = f then
      let ev := refreshAt s.heap o
      let h1 := hset s.heap o { hget s.heap o with m_next := none }
      let h2 := hset h1 o { hget h1 o with m_tiler := none }
      ({ s with heap := h2, m_first := (hget s.heap o).m_next }, ev, true)
    else
      let r := removeAux s.heap o (s.heap.length + 1) f
      ({ s with heap := r.1 }, r.2.1, r.2.2)

/-- `NanoObject::moveTo(p)` invoked on the member behind identifier `i`
(only that object's fields change). -/
def heapMoveTo (h : Heap) (i : Nat) (p : NanoPoint) : Heap × List RefreshEvent :=
  let r := (hget h i).moveTo p
  (hset h i r.1, r.2)

/-! ## The member chain and the well-formedness invariant -/

/-- `Chain h st l`: following `m_next` links from `st` visits exactly the
identifiers of `l`, in order, and ends at null. -/
def Chain (h : Heap) : Option Nat → List Nat → Prop
  | st, [] => st = none
  | st, i :: rest => st = some i ∧ Chain h (hget h i).m_next rest

/-- Well-formedness of a collection state: the member chain from `m_first`
is a finite acyclic list of pairwise-distinct identifiers, all present in
the heap. -/
def WF (s : ListSt) : Prop :=
  ∃ l : List Nat, Chain s.heap s.m_first l ∧ l.Nodup ∧ l ⊆ keys s.heap

/-- The `refreshWorld` calls emitted when every object of `l` (whose tiler
reference is `lt`) is refreshed in order, with the rectangles read from
heap `h`. -/
def chainTrace (lt : Option Nat) (h : Heap) (l : List Nat) : List RefreshEvent :=
  match lt with
  | some t => l.map (fun i => (t, (hget h i).m_rect))
  | none => []

/-- A membership operation of the collection, for reasoning about arbitrary
operation sequences. -/
inductive ListOp where
  | addOp (object : Option Nat)
  | insertOp (object : Option Nat)
  | removeOp (object : Option Nat)

/-- The state after running one membership operation. -/
def applyOp (s : ListSt) (op : ListOp) : ListSt :=
  match op with
  | .addOp o => (add s o).1
  | .insertOp o => (insertObj s o).1
  | .removeOp o => (remove s o).1

/-- Validity of an operation's argument: a non-null entity handed to
`add`/`insert` must be a live object (a valid pointer in the source).
`remove` and null arguments need no such condition. -/
def argOk (h : Heap) (op : ListOp) : Prop :=
  match op with
  | .addOp (some o) => o ∈ keys h
  | .insertOp (some o) => o ∈ keys h
  | _ => True

/-- A concrete empty collection (target 7 attached) over a two-object heap,
used to evaluate the theorems on concrete inputs. -/
def sEmpty : ListSt :=
  ⟨[(0, ⟨⟨⟨1, 2⟩, ⟨3, 4⟩⟩, none, none⟩),
    (1, ⟨⟨⟨5, 6⟩, ⟨7, 8⟩⟩, none, none⟩)], none, some 7, ⟨⟨0, 0⟩, ⟨0, 0⟩⟩⟩

/-- A concrete two-member collection (chain `0 → 1`, target 7 attached),
with a third detached object, used to evaluate the theorems on concrete
inputs. -/
def sTwo : ListSt :=
  ⟨[(0, ⟨⟨⟨1, 2⟩, ⟨3, 4⟩⟩, some 7, some 1⟩),
    (1, ⟨⟨⟨5, 6⟩, ⟨7, 8⟩⟩, some 7, none⟩),
    (2, ⟨⟨⟨0, 1⟩, ⟨9, 9⟩⟩, none, none⟩)], some 0, some 7, ⟨⟨0, 0⟩, ⟨0, 0⟩⟩⟩

/-! ## Heap lemmas -/

theorem hget_cons (e : Nat × NanoObject) (t : Heap) (j : Nat) :
    hget (e :: t) j = if e.1 = j then e.2 else hget t j := by
  unfold hget
  by_cases hej : e.1 = j
  · rw [List.find?_cons_of_pos _ (by simp [hej]), if_pos hej]
  · rw [List.find?_cons_of_neg _ (by simp [hej]), if_neg hej]

theorem hset_cons (e : Nat × NanoObject) (t : Heap) (i : Nat) (o : NanoObject) :
    hset (e :: t) i o = (if e.1 = i then (i, o) else e) :: hset t i o := by
  simp [hset]

theorem keys_hset (h : Heap) (i : Nat) (o : NanoObject) :
    keys (hset h i o) = keys h := by
  induction h with
  | nil => rfl
  | cons e t ih =>
    rw [hset_cons]
    by_cases he : e.1 = i
    · rw [if_pos he]
      simp only [keys, List.map_cons, he]
      exact congrArg _ (by simpa [keys] using ih)
    · rw [if_neg he]
      simp only [keys, List.map_cons]
      exact congrArg _ (by simpa [keys] using ih)

theorem length_hset (h : Heap) (i : Nat) (o : NanoObject) :
    (hset h i o).length = h.length := by
  simp [hset]

theorem hget_hset_ne (h : Heap) {i j : Nat} (o : NanoObject) (hne : j ≠ i) :
    hget (hset h i o) j = hget h j := by
  induction h with
  | nil => rfl
  | cons e t ih =>
    rw [hset_cons]
    by_cases he : e.1 = i
    · rw [if_pos he, hget_cons, hget_cons,
          if_neg (show ¬((i, o).1 = j) from fun hq => hne hq.symm),
          if_neg (show ¬(e.1 = j) from fun hq => hne (hq ▸ he))]
      exact ih
    · rw [if_neg he, hget_cons, hget_cons]
      by_cases hej : e.1 = j
      · rw [if_pos hej, if_pos hej]
      · rw [if_neg hej, if_neg hej]
        exact ih

theorem hget_hset_self (h : Heap) {i : Nat} (o : NanoObject) (hmem : i ∈ keys h) :
    hget (hset h i o) i = o := by
  induction h with
  | nil => simp [keys] at hmem
  | cons e t ih =>
    rw [hset_cons]
    by_cases he : e.1 = i
    · rw [if_pos he, hget_cons, if_pos rfl]
    · rw [if_neg he, hget_cons, if_neg he]
      apply ih
      simp only [keys, List.map_cons, List.mem_cons] at hmem
      rcases hmem with hmem | hmem
      · exact absurd hmem.symm he
      · simpa [keys] using hmem

theorem hset_of_not_mem (h : Heap) {i : Nat} (o : NanoObject) (hmem : i ∉ keys h) :
    hset h i o = h := by
  induction h with
  | nil => rfl
  | cons e t ih =>
    simp only [keys, List.map_cons, List.mem_cons, not_or] at hmem
    rw [hset_cons, if_neg (fun hq => hmem.1 hq.symm),
        ih (by simpa [keys] using hmem.2)]

/-! ## Chain lemmas -/

theorem chain_length_le {h : Heap} {l : List Nat} (hnd : l.Nodup)
    (hsub : l ⊆ keys h) : l.length ≤ h.length := by
  have := (List.subperm_of_subset hnd hsub).length_le
  simpa [keys] using this

theorem chain_hset_not_mem {h : Heap} {st : Option Nat} {l : List Nat}
    (hc : Chain h st l) {i : Nat} (hni : i ∉ l) (o : NanoObject) :
    Chain (hset h i o) st l := by
  induction l generalizing st with
  | nil => exact hc
  | cons j rest ih =>
    obtain ⟨hst, hrest⟩ := hc
    have hji : j ≠ i := fun hq => hni (hq ▸ List.mem_cons_self j rest)
    exact ⟨hst, by
      rw [hget_hset_ne h o hji]
      exact ih hrest (fun hm => hni (List.mem_cons_of_mem j hm))⟩

theorem chain_congr_next {h h' : Heap} {st : Option Nat} {l : List Nat}
    (hn : ∀ j ∈ l, (hget h' j).m_next = (hget h j).m_next)
    (hc : Chain h st l) : Chain h' st l := by
  induction l generalizing st with
  | nil => exact hc
  | cons j rest ih =>
    obtain ⟨hst, hrest⟩ := hc
    refine ⟨hst, ?_⟩
    rw [hn j (List.mem_cons_self j rest)]
    exact ih (fun k hk => hn k (List.mem_cons_of_mem j hk)) hrest

/-! ## Loop / chain correspondence -/

theorem traverseAux_eq {h : Heap} {st : Option Nat} {l : List Nat}
    (hc : Chain h st l) : ∀ {fuel : Nat}, l.length ≤ fuel →
    traverseAux h fuel st = l := by
  induction l generalizing st with
  | nil =>
    intro fuel _
    cases fuel with
    | zero => rfl
    | succ f => rw [hc]; rfl
  | cons i rest ih =>
    intro fuel hf
    obtain ⟨hst, hrest⟩ := hc
    cases fuel with
    | zero => exact absurd hf (by simp)
    | succ f =>
      rw [hst]
      show i :: traverseAux h f (hget h i).m_next = i :: rest
      exact congrArg _ (ih hrest (Nat.le_of_succ_le_succ hf))

theorem hasAux_none (h : Heap) : ∀ (fuel : Nat) (st : Option Nat),
    hasAux h none fuel st = false := by
  intro fuel
  induction fuel with
  | zero => intro st; rfl
  | succ f ih =>
    intro st
    cases st with
    | none => rfl
    | some i =>
      show (if some i = none then true else hasAux h none f (hget h i).m_next) = false
      rw [if_neg (by simp)]
      exact ih _

theorem hasAux_eq {h : Heap} {st : Option Nat} {l : List Nat}
    (hc : Chain h st l) (o : Nat) : ∀ {fuel : Nat}, l.length < fuel →
    hasAux h (some o) fuel st = decide (o ∈ l) := by
  induction l generalizing st with
  | nil =>
    intro fuel hf
    cases fuel with
    | zero => exact absurd hf (by simp)
    | succ f => rw [hc]; simp [hasAux]
  | cons i rest ih =>
    intro fuel hf
    obtain ⟨hst, hrest⟩ := hc
    cases fuel with
    | zero => exact absurd hf (by simp)
    | succ f =>
      rw [hst]
      show (if some i = some o then true else hasAux h (some o) f (hget h i).m_next)
          = decide (o ∈ i :: rest)
      by_cases hio : i = o
      · rw [if_pos (by rw [hio])]
        simp [hio]
      · rw [if_neg (by simpa using hio)]
        rw [ih hrest (Nat.lt_of_succ_lt_succ hf)]
        simp [List.mem_cons, (Ne.symm hio : o ≠ i)]

theorem getPrevAux_none_eq {h : Heap} {st : Option Nat} {l : List Nat}
    (hc : Chain h st l) : ∀ {fuel : Nat}, l.length ≤ fuel →
    getPrevAux h none fuel st = l.getLast? := by
  induction l generalizing st with
  | nil =>
    intro fuel _
    cases fuel with
    | zero => rfl
    | succ f => rw [hc]; rfl
  | cons i rest ih =>
    intro fuel hf
    obtain ⟨hst, hrest⟩ := hc
    cases fuel with
    | zero => exact absurd hf (by simp)
    | succ f =>
      rw [hst]
      show (if (hget h i).m_next = none then some i
            else getPrevAux h none f (hget h i).m_next) = (i :: rest).getLast?
      cases rest with
      | nil =>
        rw [if_pos (show (hget h i).m_next = none from hrest)]
        rfl
      | cons j t =>
        have hj : (hget h i).m_next = some j := hrest.1
        rw [if_neg (by rw [hj]; simp), List.getLast?_cons_cons]
        exact ih hrest (Nat.le_of_succ_le_succ hf)

/-! ## Field-preservation helpers -/

theorem hget_rect_preserve {h : Heap} {i : Nat} {o' : NanoObject}
    (hr : o'.m_rect = (hget h i).m_rect) (j : Nat) :
    (hget (hset h i o') j).m_rect = (hget h j).m_rect := by
  by_cases hji : j = i
  · subst hji
    by_cases hik : j ∈ keys h
    · rw [hget_hset_self _ _ hik, hr]
    · rw [hset_of_not_mem _ _ hik]
  · rw [hget_hset_ne _ _ hji]

theorem hget_tiler_preserve {h : Heap} {i : Nat} {o' : NanoObject}
    (ht : o'.m_tiler = (hget h i).m_tiler) (j : Nat) :
    (hget (hset h i o') j).m_tiler = (hget h j).m_tiler := by
  by_cases hji : j = i
  · subst hji
    by_cases hik : j ∈ keys h
    · rw [hget_hset_self _ _ hik, ht]
    · rw [hset_of_not_mem _ _ hik]
  · rw [hget_hset_ne _ _ hji]

theorem hget_next_preserve {h : Heap} {i : Nat} {o' : NanoObject}
    (hn : o'.m_next = (hget h i).m_next) (j : Nat) :
    (hget (hset h i o') j).m_next = (hget h j).m_next := by
  by_cases hji : j = i
  · subst hji
    by_cases hik : j ∈ keys h
    · rw [hget_hset_self _ _ hik, hn]
    · rw [hset_of_not_mem _ _ hik]
  · rw [hget_hset_ne _ _ hji]

theorem hget_rect_set_next (h : Heap) (i : Nat) (n : Option Nat) (j : Nat) :
    (hget (hset h i { hget h i with m_next := n }) j).m_rect = (hget h j).m_rect :=
  hget_rect_preserve
    (show ({ hget h i with m_next := n } : NanoObject).m_rect = (hget h i).m_rect from rfl) j

theorem hget_tiler_set_next (h : Heap) (i : Nat) (n : Option Nat) (j : Nat) :
    (hget (hset h i { hget h i with m_next := n }) j).m_tiler = (hget h j).m_tiler :=
  hget_tiler_preserve
    (show ({ hget h i with m_next := n } : NanoObject).m_tiler = (hget h i).m_tiler from rfl) j

theorem hget_rect_set_tiler (h : Heap) (i : Nat) (t : Option Nat) (j : Nat) :
    (hget (hset h i { hget h i with m_tiler := t }) j).m_rect = (hget h j).m_rect :=
  hget_rect_preserve
    (show ({ hget h i with m_tiler := t } : NanoObject).m_rect = (hget h i).m_rect from rfl) j

theorem hget_next_set_tiler (h : Heap) (i : Nat) (t : Option Nat) (j : Nat) :
    (hget (hset h i { hget h i with m_tiler := t }) j).m_next = (hget h j).m_next :=
  hget_next_preserve
    (show ({ hget h i with m_tiler := t } : NanoObject).m_next = (hget h i).m_next from rfl) j

/-! ## Appending at the tail of a chain -/

theorem chain_snoc {h : Heap} {o last : Nat} {st : Option Nat} {l : List Nat}
    (hc : Chain h st l) (hnd : l.Nodup) (hsub : l ⊆ keys h)
    (hlast : l.getLast? = some last) (hol : o ∉ l)
    (hnext : (hget h o).m_next = none) :
    Chain (hset h last { hget h last with m_next := some o }) st (l ++ [o]) := by
  induction l generalizing st with
  | nil => simp at hlast
  | cons a rest ih =>
    obtain ⟨hst, hrest⟩ := hc
    cases rest with
    | nil =>
      have ha : a = last := by simpa using hlast
      subst ha
      have hak : a ∈ keys h := hsub (List.mem_cons_self a [])
      have hoa : o ≠ a := fun hq => hol (by simp [hq])
      refine ⟨hst, ?_⟩
      rw [hget_hset_self h _ hak]
      refine ⟨rfl, ?_⟩
      show (hget (hset h a _) o).m_next = none
      rw [hget_hset_ne h _ hoa]
      exact hnext
    | cons b t =>
      have hlast' : (b :: t).getLast? = some last := by
        rw [List.getLast?_cons_cons] at hlast
        exact hlast
      have hmem : last ∈ b :: t := List.mem_of_mem_getLast? hlast'
      have halast : a ≠ last := by
        intro hq
        subst hq
        exact (List.nodup_cons.mp hnd).1 hmem
      refine ⟨hst, ?_⟩
      rw [hget_hset_ne h _ halast]
      exact ih hrest (List.nodup_cons.mp hnd).2
        (fun k hk => hsub (List.mem_cons_of_mem a hk)) hlast'
        (fun hm => hol (List.mem_cons_of_mem a hm))

/-! ## List-operation specifications -/

theorem hasObj_eq {s : ListSt} {l : List Nat} (hc : Chain s.heap s.m_first l)
    (hnd : l.Nodup) (hsub : l ⊆ keys s.heap) (o : Nat) :
    hasObj s (some o) = decide (o ∈ l) :=
  hasAux_eq hc o (Nat.lt_succ_of_le (chain_length_le hnd hsub))

theorem hasObj_none (s : ListSt) : hasObj s none = false :=
  hasAux_none s.heap (fuelOf s) s.m_first

theorem add_not_added {s : ListSt} {l : List Nat} {o : Nat}
    (hc : Chain s.heap s.m_first l) (hnd : l.Nodup) (hsub : l ⊆ keys s.heap)
    (hol : o ∈ l) : add s (some o) = (s, [], false) := by
  have hhasb : hasObj s (some o) = true := by
    rw [hasObj_eq hc hnd hsub]
    simp [hol]
  simp [add, hhasb]

theorem add_spec {s : ListSt} {l : List Nat} {o : Nat}
    (hc : Chain s.heap s.m_first l) (hnd : l.Nodup) (hsub : l ⊆ keys s.heap)
    (ho : o ∈ keys s.heap) (hol : o ∉ l) :
    ∃ s', add s (some o) =
        (s', NanoObject.refreshCalls ⟨(hget s.heap o).m_rect, s.m_tiler, none⟩, true) ∧
      Chain s'.heap s'.m_first (l ++ [o]) ∧
      keys s'.heap = keys s.heap ∧
      s'.m_tiler = s.m_tiler ∧ s'.m_rect = s.m_rect ∧
      hget s'.heap o = ⟨(hget s.heap o).m_rect, s.m_tiler, none⟩ ∧
      (∀ j, (hget s'.heap j).m_rect = (hget s.heap j).m_rect) ∧
      (∀ j, j ≠ o → (hget s'.heap j).m_tiler = (hget s.heap j).m_tiler) := by
  have hhasb : hasObj s (some o) = false := by
    rw [hasObj_eq hc hnd hsub]
    simp [hol]
  simp only [add, hhasb, Bool.false_eq_true, if_false]
  set h1 := hset s.heap o { hget s.heap o with m_next := none } with hh1
  set h2 := hset h1 o { hget h1 o with m_tiler := s.m_tiler } with hh2
  have hko : o ∈ keys h1 := by rw [hh1, keys_hset]; exact ho
  have hg1 : hget h1 o = { hget s.heap o with m_next := none } := by
    rw [hh1]; exact hget_hset_self _ _ ho
  have hg2 : hget h2 o = ⟨(hget s.heap o).m_rect, s.m_tiler, none⟩ := by
    rw [hh2, hget_hset_self _ _ hko, hg1]
  have hkeys2 : keys h2 = keys s.heap := by rw [hh2, hh1, keys_hset, keys_hset]
  have hlen2 : h2.length = s.heap.length := by rw [hh2, hh1, length_hset, length_hset]
  have hch2 : Chain h2 s.m_first l := by
    rw [hh2, hh1]
    exact chain_hset_not_mem (chain_hset_not_mem hc hol _) hol _
  have hsub2 : l ⊆ keys h2 := by rw [hkeys2]; exact hsub
  have hrect2 : ∀ j, (hget h2 j).m_rect = (hget s.heap j).m_rect := by
    intro j
    have e2 : (hget h2 j).m_rect = (hget h1 j).m_rect := hget_rect_set_tiler _ _ _ j
    have e1 : (hget h1 j).m_rect = (hget s.heap j).m_rect := hget_rect_set_next _ _ _ j
    rw [e2, e1]
  have htiler2 : ∀ j, j ≠ o → (hget h2 j).m_tiler = (hget s.heap j).m_tiler := by
    intro j hj
    have e2 : hget h2 j = hget h1 j := hget_hset_ne _ _ hj
    have e1 : hget h1 j = hget s.heap j := hget_hset_ne _ _ hj
    rw [e2, e1]
  cases hf : s.m_first with
  | none =>
    have hl : l = [] := by
      cases l with
      | nil => rfl
      | cons a r =>
        rw [hf] at hc
        exact absurd hc.1 (by simp)
    subst hl
    refine ⟨{ s with heap := h2, m_first := some o }, ?_, ?_, hkeys2, rfl, rfl, hg2,
      hrect2, htiler2⟩
    · show ({ s with heap := h2, m_first := some o }, refreshAt h2 o, true) = _
      simp only [refreshAt, hg2]
    · show Chain h2 (some o) ([] ++ [o])
      refine ⟨rfl, ?_⟩
      show (hget h2 o).m_next = none
      rw [hg2]
  | some f =>
    rw [hf] at hch2 hc
    have hlr : ∃ rest, l = f :: rest := by
      cases l with
      | nil => exact absurd hc (by simp [Chain])
      | cons a r => exact ⟨r, by rw [Option.some.inj hc.1]⟩
    obtain ⟨rest, hlr⟩ := hlr
    subst hlr
    obtain ⟨la, hla⟩ : ∃ la, (f :: rest).getLast? = some la := by
      cases hq : (f :: rest).getLast? with
      | some la => exact ⟨la, rfl⟩
      | none => exact absurd (List.getLast?_eq_none_iff.mp hq) (by simp)
    have hgp : getPrevAux h2 none (h2.length + 1) (some f) = some la := by
      rw [getPrevAux_none_eq hch2
        (le_trans (chain_length_le hnd hsub2) (Nat.le_succ _))]
      exact hla
    rw [hgp]
    set h3 := hset h2 la { hget h2 la with m_next := some o } with hh3
    have hla_mem : la ∈ f :: rest := List.mem_of_mem_getLast? (by simp [hla])
    have hla_ne_o : o ≠ la := fun hq => hol (hq ▸ hla_mem)
    have hg3o : hget h3 o = ⟨(hget s.heap o).m_rect, s.m_tiler, none⟩ := by
      rw [hh3, hget_hset_ne _ _ hla_ne_o, hg2]
    refine ⟨{ s with heap := h3, m_first := some f }, ?_, ?_, ?_, rfl, rfl, hg3o, ?_, ?_⟩
    · show ({ s with heap := h3, m_first := some f }, refreshAt h3 o, true) = _
      simp only [refreshAt, hg3o]
    · show Chain h3 (some f) ((f :: rest) ++ [o])
      rw [hh3]
      exact chain_snoc hch2 hnd hsub2 hla hol (by rw [hg2])
    · show keys h3 = keys s.heap
      rw [hh3, keys_hset, hkeys2]
    · intro j
      show (hget h3 j).m_rect = (hget s.heap j).m_rect
      exact (hget_rect_set_next _ _ _ j).trans (hrect2 j)
    · intro j hj
      show (hget h3 j).m_tiler = (hget s.heap j).m_tiler
      exact (hget_tiler_set_next _ _ _ j).trans (htiler2 j hj)

theorem insertObj_not_added {s : ListSt} {l : List Nat} {o : Nat}
    (hc : Chain s.heap s.m_first l) (hnd : l.Nodup) (hsub : l ⊆ keys s.heap)
    (hol : o ∈ l) : insertObj s (some o) = (s, [], false) := by
  have hhasb : hasObj s (some o) = true := by
    rw [hasObj_eq hc hnd hsub]
    simp [hol]
  simp [insertObj, hhasb]

theorem insertObj_spec {s : ListSt} {l : List Nat} {o : Nat}
    (hc : Chain s.heap s.m_first l) (hnd : l.Nodup) (hsub : l ⊆ keys s.heap)
    (ho : o ∈ keys s.heap) (hol : o ∉ l) :
    ∃ s', insertObj s (some o) =
        (s', NanoObject.refreshCalls ⟨(hget s.heap o).m_rect, s.m_tiler, s.m_first⟩, true) ∧
      s'.m_first = some o ∧
      Chain s'.heap s'.m_first (o :: l) ∧
      keys s'.heap = keys s.heap ∧
      s'.m_tiler = s.m_tiler ∧ s'.m_rect = s.m_rect ∧
      hget s'.heap o = ⟨(hget s.heap o).m_rect, s.m_tiler, s.m_first⟩ ∧
      (∀ j, (hget s'.heap j).m_rect = (hget s.heap j).m_rect) ∧
      (∀ j, j ≠ o → (hget s'.heap j).m_tiler = (hget s.heap j).m_tiler) := by
  have hhasb : hasObj s (some o) = false := by
    rw [hasObj_eq hc hnd hsub]
    simp [hol]
  simp only [insertObj, hhasb, Bool.false_eq_true, if_false]
  set h1 := hset s.heap o { hget s.heap o with m_next := s.m_first } with hh1
  set h2 := hset h1 o { hget h1 o with m_tiler := s.m_tiler } with hh2
  have hko : o ∈ keys h1 := by rw [hh1, keys_hset]; exact ho
  have hg1 : hget h1 o = { hget s.heap o with m_next := s.m_first } := by
    rw [hh1]; exact hget_hset_self _ _ ho
  have hg2 : hget h2 o = ⟨(hget s.heap o).m_rect, s.m_tiler, s.m_first⟩ := by
    rw [hh2, hget_hset_self _ _ hko, hg1]
  have hkeys2 : keys h2 = keys s.heap := by rw [hh2, hh1, keys_hset, keys_hset]
  have hch2 : Chain h2 s.m_first l := by
    rw [hh2, hh1]
    exact chain_hset_not_mem (chain_hset_not_mem hc hol _) hol _
  refine ⟨{ s with heap := h2, m_first := some o }, ?_, rfl, ?_, hkeys2, rfl, rfl, hg2,
    ?_, ?_⟩
  · show ({ s with heap := h2, m_first := some o }, refreshAt h2 o, true) = _
    simp only [refreshAt, hg2]
  · show Chain h2 (some o) (o :: l)
    refine ⟨rfl, ?_⟩
    rw [hg2]
    exact hch2
  · intro j
    have e2 : (hget h2 j).m_rect = (hget h1 j).m_rect := hget_rect_set_tiler _ _ _ j
    have e1 : (hget h1 j).m_rect = (hget s.heap j).m_rect := hget_rect_set_next _ _ _ j
    rw [e2, e1]
  · intro j hj
    have e2 : hget h2 j = hget h1 j := hget_hset_ne _ _ hj
    have e1 : hget h1 j = hget s.heap j := hget_hset_ne _ _ hj
    rw [e2, e1]

theorem removeAux_not_found {h : Heap} {o : Nat} :
    ∀ {fuel : Nat} {p : Nat} {rest : List Nat},
    Chain h (hget h p).m_next rest → o ∉ rest →
    removeAux h o fuel p = (h, [], false) := by
  intro fuel
  induction fuel with
  | zero => intro p rest _ _; rfl
  | succ f ih =>
    intro p rest hc ho
    cases rest with
    | nil =>
      simp only [removeAux]
      rw [show (hget h p).m_next = none from hc]
    | cons q t =>
      obtain ⟨hq, ht⟩ := hc
      have hqo : ¬(q = o) := fun he => ho (he ▸ List.mem_cons_self q t)
      simp only [removeAux]
      rw [hq]
      show (if q = o then _ else removeAux h o f q) = _
      rw [if_neg hqo]
      exact ih ht (fun hm => ho (List.mem_cons_of_mem q hm))

theorem removeAux_found {h : Heap} {o : Nat} :
    ∀ {rest : List Nat} {p : Nat} {fuel : Nat},
    Chain h (hget h p).m_next rest → (p :: rest).Nodup →
    (p :: rest) ⊆ keys h → o ∈ rest → rest.length ≤ fuel →
    ∃ h', removeAux h o fuel p = (h', refreshAt h o, true) ∧
      Chain h' (hget h' p).m_next (rest.erase o) ∧
      keys h' = keys h ∧
      (hget h' o).m_next = none ∧
      (hget h' o).m_tiler = none ∧
      (∀ j, (hget h' j).m_rect = (hget h j).m_rect) ∧
      (∀ j, j ≠ o → (hget h' j).m_tiler = (hget h j).m_tiler) ∧
      (∀ j, j ∉ p :: rest → hget h' j = hget h j) := by
  intro rest
  induction rest with
  | nil => intro p fuel _ _ _ ho _; simp at ho
  | cons q t ih =>
    intro p fuel hc hnd hsub ho hf
    obtain ⟨hq, ht⟩ := hc
    cases fuel with
    | zero => simp at hf
    | succ f =>
      by_cases hqo : q = o
      · rw [hqo] at hq ht hnd hsub ho ⊢
        have hpo : p ≠ o := fun he =>
          (List.nodup_cons.mp hnd).1 (he ▸ List.mem_cons_self o t)
        have hpt : p ∉ t := fun hm =>
          (List.nodup_cons.mp hnd).1 (List.mem_cons_of_mem o hm)
        have hot : o ∉ t := (List.nodup_cons.mp (List.nodup_cons.mp hnd).2).1
        have hpk : p ∈ keys h := hsub (List.mem_cons_self p (o :: t))
        have hok : o ∈ keys h := hsub (List.mem_cons_of_mem p (List.mem_cons_self o t))
        simp only [removeAux]
        rw [hq]
        show ∃ h', (if o = o then _ else _) = _ ∧ _
        rw [if_pos rfl]
        set A := hset h p { hget h p with m_next := (hget h o).m_next } with hA
        set B := hset A o { hget A o with m_next := none } with hB
        set C := hset B o { hget B o with m_tiler := none } with hC
        have gAp : hget A p = { hget h p with m_next := (hget h o).m_next } := by
          rw [hA]; exact hget_hset_self _ _ hpk
        have gAo : hget A o = hget h o := by
          rw [hA]; exact hget_hset_ne _ _ (Ne.symm hpo)
        have keysA : keys A = keys h := by rw [hA, keys_hset]
        have hokA : o ∈ keys A := by rw [keysA]; exact hok
        have gBo : hget B o = { hget h o with m_next := none } := by
          rw [hB, hget_hset_self _ _ hokA, gAo]
        have gBp : hget B p = hget A p := by rw [hB]; exact hget_hset_ne _ _ hpo
        have keysB : keys B = keys h := by rw [hB, keys_hset, keysA]
        have hokB : o ∈ keys B := by rw [keysB]; exact hok
        have gCo : hget C o = ⟨(hget h o).m_rect, none, none⟩ := by
          rw [hC, hget_hset_self _ _ hokB, gBo]
        have gCp : hget C p = { hget h p with m_next := (hget h o).m_next } := by
          rw [hC, hget_hset_ne _ _ hpo, gBp, gAp]
        refine ⟨C, rfl, ?_, ?_, ?_, ?_, ?_, ?_, ?_⟩
        · rw [List.erase_cons_head, gCp]
          show Chain C (hget h o).m_next t
          rw [hC, hB, hA]
          exact chain_hset_not_mem (chain_hset_not_mem (chain_hset_not_mem ht hpt _)
            hot _) hot _
        · rw [hC, keys_hset, keysB]
        · rw [gCo]
        · rw [gCo]
        · intro j
          have e3 : (hget C j).m_rect = (hget B j).m_rect := by
            rw [hC]; exact hget_rect_set_tiler _ _ _ j
          have e2 : (hget B j).m_rect = (hget A j).m_rect := by
            rw [hB]; exact hget_rect_set_next _ _ _ j
          have e1 : (hget A j).m_rect = (hget h j).m_rect := by
            rw [hA]; exact hget_rect_set_next _ _ _ j
          rw [e3, e2, e1]
        · intro j hj
          have e3 : hget C j = hget B j := by rw [hC]; exact hget_hset_ne _ _ hj
          have e2 : (hget B j).m_tiler = (hget A j).m_tiler := by
            rw [hB]; exact hget_tiler_set_next _ _ _ j
          have e1 : (hget A j).m_tiler = (hget h j).m_tiler := by
            rw [hA]; exact hget_tiler_set_next _ _ _ j
          rw [e3, e2, e1]
        · intro j hj
          have hjp : j ≠ p := fun he => hj (he ▸ List.mem_cons_self _ _)
          have hjo : j ≠ o := fun he =>
            hj (he ▸ List.mem_cons_of_mem _ (List.mem_cons_self _ _))
          rw [hC, hget_hset_ne _ _ hjo, hB, hget_hset_ne _ _ hjo, hA,
            hget_hset_ne _ _ hjp]
      · have hot : o ∈ t := by
          rcases List.mem_cons.mp ho with he | hm
          · exact absurd he.symm hqo
          · exact hm
        have hnd' : (q :: t).Nodup := (List.nodup_cons.mp hnd).2
        have hsub' : q :: t ⊆ keys h := fun k hk => hsub (List.mem_cons_of_mem _ hk)
        have hf' : t.length ≤ f := Nat.le_of_succ_le_succ hf
        obtain ⟨h', heq, hch, hkeys, hnx, htl, hrect, htiler, hunt⟩ :=
          ih ht hnd' hsub' hot hf'
        have hpqt : p ∉ q :: t := (List.nodup_cons.mp hnd).1
        have hpo : p ≠ o := fun he => (he ▸ hpqt : o ∈ q :: t → False) ho
        refine ⟨h', ?_, ?_, hkeys, hnx, htl, hrect, htiler, ?_⟩
        · simp only [removeAux]
          rw [hq]
          show (if q = o then _ else removeAux h o f q) = _
          rw [if_neg hqo]
          exact heq
        · rw [List.erase_cons_tail (by simp [hqo])]
          refine ⟨?_, hch⟩
          rw [hunt p hpqt]
          exact hq
        · intro j hj
          exact hunt j (fun hm => hj (List.mem_cons_of_mem _ hm))

theorem remove_none (s : ListSt) : remove s none = (s, [], false) := by
  cases hf : s.m_first with
  | none => simp [remove, hf]
  | some f => simp [remove, hf]

theorem remove_not_mem {s : ListSt} {l : List Nat} {o : Nat}
    (hc : Chain s.heap s.m_first l) (hol : o ∉ l) :
    remove s (some o) = (s, [], false) := by
  cases hf : s.m_first with
  | none => simp [remove, hf]
  | some f =>
    rw [hf] at hc
    have hlr : ∃ rest, l = f :: rest := by
      cases l with
      | nil => exact absurd hc (by simp [Chain])
      | cons a r => exact ⟨r, by rw [Option.some.inj hc.1]⟩
    obtain ⟨rest, hlr⟩ := hlr
    subst hlr
    have hfo : ¬(o = f) := fun he => hol (he ▸ List.mem_cons_self f rest)
    have hrest : removeAux s.heap o (s.heap.length + 1) f = (s.heap, [], false) :=
      removeAux_not_found hc.2 (fun hm => hol (List.mem_cons_of_mem f hm))
    have hred : remove s (some o) =
        ({ s with heap := (removeAux s.heap o (s.heap.length + 1) f).1 },
         (removeAux s.heap o (s.heap.length + 1) f).2.1,
         (removeAux s.heap o (s.heap.length + 1) f).2.2) := by
      simp [remove, hf, hfo]
    rw [hred, hrest]

theorem remove_spec {s : ListSt} {l : List Nat} {o : Nat}
    (hc : Chain s.heap s.m_first l) (hnd : l.Nodup) (hsub : l ⊆ keys s.heap)
    (hol : o ∈ l) :
    ∃ s', remove s (some o) = (s', refreshAt s.heap o, true) ∧
      Chain s'.heap s'.m_first (l.erase o) ∧
      keys s'.heap = keys s.heap ∧
      s'.m_tiler = s.m_tiler ∧ s'.m_rect = s.m_rect ∧
      (hget s'.heap o).m_next = none ∧ (hget s'.heap o).m_tiler = none ∧
      (∀ j, (hget s'.heap j).m_rect = (hget s.heap j).m_rect) ∧
      (∀ j, j ≠ o → (hget s'.heap j).m_tiler = (hget s.heap j).m_tiler) := by
  cases hf : s.m_first with
  | none =>
    exfalso
    cases l with
    | nil => simp at hol
    | cons a r =>
      rw [hf] at hc
      exact absurd hc.1 (by simp)
  | some f =>
    rw [hf] at hc
    have hlr : ∃ rest, l = f :: rest := by
      cases l with
      | nil => exact absurd hc (by simp [Chain])
      | cons a r => exact ⟨r, by rw [Option.some.inj hc.1]⟩
    obtain ⟨rest, hlr⟩ := hlr
    subst hlr
    have hok : o ∈ keys s.heap := hsub hol
    by_cases hfo : o = f
    · -- removal of the chain head
      rw [hfo] at hok ⊢
      have hfrest : f ∉ rest := (List.nodup_cons.mp hnd).1
      set h1 := hset s.heap f { hget s.heap f with m_next := none } with hh1
      set h2 := hset h1 f { hget h1 f with m_tiler := none } with hh2
      have hred : remove s (some f) =
          ({ s with heap := h2, m_first := (hget s.heap f).m_next },
           refreshAt s.heap f, true) := by
        simp [remove, hf, hh2, hh1]
      have hfk1 : f ∈ keys h1 := by rw [hh1, keys_hset]; exact hok
      have hg1 : hget h1 f = { hget s.heap f with m_next := none } := by
        rw [hh1]; exact hget_hset_self _ _ hok
      have hg2 : hget h2 f = ⟨(hget s.heap f).m_rect, none, none⟩ := by
        rw [hh2, hget_hset_self _ _ hfk1, hg1]
      refine ⟨{ s with heap := h2, m_first := (hget s.heap f).m_next }, hred, ?_, ?_,
        rfl, rfl, ?_, ?_, ?_, ?_⟩
      · show Chain h2 (hget s.heap f).m_next ((f :: rest).erase f)
        rw [List.erase_cons_head]
        rw [hh2, hh1]
        exact chain_hset_not_mem (chain_hset_not_mem hc.2 hfrest _) hfrest _
      · show keys h2 = keys s.heap
        rw [hh2, hh1, keys_hset, keys_hset]
      · show (hget h2 f).m_next = none
        rw [hg2]
      · show (hget h2 f).m_tiler = none
        rw [hg2]
      · intro j
        show (hget h2 j).m_rect = (hget s.heap j).m_rect
        have e2 : (hget h2 j).m_rect = (hget h1 j).m_rect := by
          rw [hh2]; exact hget_rect_set_tiler _ _ _ j
        have e1 : (hget h1 j).m_rect = (hget s.heap j).m_rect := by
          rw [hh1]; exact hget_rect_set_next _ _ _ j
        rw [e2, e1]
      · intro j hj
        show (hget h2 j).m_tiler = (hget s.heap j).m_tiler
        have e2 : hget h2 j = hget h1 j := by rw [hh2]; exact hget_hset_ne _ _ hj
        have e1 : (hget h1 j).m_tiler = (hget s.heap j).m_tiler := by
          rw [hh1]; exact hget_tiler_set_next _ _ _ j
        rw [e2, e1]
    · -- removal from the middle or tail of the chain
      have horest : o ∈ rest := by
        rcases List.mem_cons.mp hol with he | hm
        · exact absurd he hfo
        · exact hm
      have hflen : rest.length ≤ s.heap.length + 1 := by
        have := chain_length_le hnd hsub
        simp only [List.length_cons] at this
        omega
      obtain ⟨h', heq, hch, hkeys, hnx, htl, hrect, htiler, hunt⟩ :=
        removeAux_found hc.2 hnd hsub horest hflen
      have hred : remove s (some o) =
          ({ s with heap := (removeAux s.heap o (s.heap.length + 1) f).1 },
           (removeAux s.heap o (s.heap.length + 1) f).2.1,
           (removeAux s.heap o (s.heap.length + 1) f).2.2) := by
        simp [remove, hf, hfo]
      rw [hred, heq]
      refine ⟨{ s with heap := h' }, rfl, ?_, hkeys, rfl, rfl, hnx, htl, hrect, htiler⟩
      show Chain h' s.m_first ((f :: rest).erase o)
      rw [hf, List.erase_cons_tail
        (by simp only [beq_iff_eq]; exact fun he => hfo he.symm)]
      exact ⟨rfl, hch⟩

/-! ## Refresh traversal and move specifications -/

theorem chainTrace_congr {lt : Option Nat} {h h' : Heap} {l : List Nat}
    (hr : ∀ i ∈ l, (hget h' i).m_rect = (hget h i).m_rect) :
    chainTrace lt h' l = chainTrace lt h l := by
  cases lt with
  | none => rfl
  | some t =>
    simp only [chainTrace]
    exact List.map_congr_left (fun i hi => by rw [hr i hi])

theorem listRefreshAux_spec (lt : Option Nat) :
    ∀ {l : List Nat} {h : Heap} {st : Option Nat} {fuel : Nat},
    Chain h st l → l.Nodup → l ⊆ keys h → l.length ≤ fuel →
    ∃ h', listRefreshAux h lt fuel st = (h', chainTrace lt h l) ∧
      Chain h' st l ∧ keys h' = keys h ∧
      (∀ i ∈ l, (hget h' i).m_tiler = lt) ∧
      (∀ j, (hget h' j).m_rect = (hget h j).m_rect) ∧
      (∀ j, (hget h' j).m_next = (hget h j).m_next) ∧
      (∀ j, j ∉ l → hget h' j = hget h j) := by
  intro l
  induction l with
  | nil =>
    intro h st fuel hc _ _ _
    refine ⟨h, ?_, hc, rfl, by simp, fun j => rfl, fun j => rfl, fun j _ => rfl⟩
    cases fuel with
    | zero => cases lt <;> rfl
    | succ f =>
      rw [show st = none from hc]
      cases lt <;> rfl
  | cons i rest ih =>
    intro h st fuel hc hnd hsub hf
    obtain ⟨hst, hrest⟩ := hc
    cases fuel with
    | zero => simp at hf
    | succ f =>
      subst hst
      have hik : i ∈ keys h := hsub (List.mem_cons_self i rest)
      have hirest : i ∉ rest := (List.nodup_cons.mp hnd).1
      simp only [listRefreshAux]
      set h1 := hset h i { hget h i with m_tiler := lt } with hh1
      have hg1 : hget h1 i = { hget h i with m_tiler := lt } := by
        rw [hh1]; exact hget_hset_self _ _ hik
      have hkeys1 : keys h1 = keys h := by rw [hh1, keys_hset]
      have hrect1 : ∀ j, (hget h1 j).m_rect = (hget h j).m_rect := by
        intro j; rw [hh1]; exact hget_rect_set_tiler _ _ _ j
      have hnext1 : ∀ j, (hget h1 j).m_next = (hget h j).m_next := by
        intro j; rw [hh1]; exact hget_next_set_tiler _ _ _ j
      have hch1 : Chain h1 (hget h1 i).m_next rest := by
        have : Chain h1 (hget h i).m_next rest := by
          rw [hh1]; exact chain_hset_not_mem hrest hirest _
        rw [hnext1 i]
        exact this
      obtain ⟨h', heq, hch', hkeys', htilers', hrect', hnext', hunt'⟩ :=
        ih hch1 (List.nodup_cons.mp hnd).2
          (by rw [hkeys1]; exact fun k hk => hsub (List.mem_cons_of_mem i hk))
          (Nat.le_of_succ_le_succ hf)
      have htr : refreshAt h1 i ++ chainTrace lt h1 rest = chainTrace lt h (i :: rest) := by
        rw [chainTrace_congr (fun j _ => hrect1 j)]
        simp only [refreshAt, hg1]
        cases lt with
        | none => rfl
        | some t => rfl
      refine ⟨h', ?_, ⟨rfl, ?_⟩, hkeys'.trans hkeys1, ?_, ?_, ?_, ?_⟩
      · rw [heq]
        exact congrArg (Prod.mk h') htr
      · rw [hnext' i]
        exact hch'
      · intro k hk
        rcases List.mem_cons.mp hk with he | hm
        · subst he
          rw [hunt' k hirest, hg1]
        · exact htilers' k hm
      · intro j
        rw [hrect' j, hrect1 j]
      · intro j
        rw [hnext' j, hnext1 j]
      · intro j hj
        have hji : j ≠ i := fun he => hj (he ▸ List.mem_cons_self i rest)
        rw [hunt' j (fun hm => hj (List.mem_cons_of_mem i hm)), hh1,
          hget_hset_ne _ _ hji]

theorem heapMoveTo_spec {h : Heap} {i : Nat} (hik : i ∈ keys h) (p : NanoPoint) :
    (heapMoveTo h i p).2
        = (hget h i).refreshCalls ++ ((hget h i).setPos p).refreshCalls ∧
      hget (heapMoveTo h i p).1 i = (hget h i).setPos p ∧
      keys (heapMoveTo h i p).1 = keys h ∧
      (∀ j, j ≠ i → hget (heapMoveTo h i p).1 j = hget h j) ∧
      (∀ j, (hget (heapMoveTo h i p).1 j).m_next = (hget h j).m_next) ∧
      (∀ j, (hget (heapMoveTo h i p).1 j).m_tiler = (hget h j).m_tiler) := by
  refine ⟨rfl, ?_, ?_, ?_, ?_, ?_⟩
  · show hget (hset h i ((hget h i).moveTo p).1) i = (hget h i).setPos p
    exact hget_hset_self _ _ hik
  · show keys (hset h i ((hget h i).moveTo p).1) = keys h
    exact keys_hset _ _ _
  · intro j hj
    show hget (hset h i ((hget h i).moveTo p).1) j = hget h j
    exact hget_hset_ne _ _ hj
  · intro j
    show (hget (hset h i ((hget h i).moveTo p).1) j).m_next = (hget h j).m_next
    exact hget_next_preserve
      (show ((hget h i).moveTo p).1.m_next = (hget h i).m_next from rfl) j
  · intro j
    show (hget (hset h i ((hget h i).moveTo p).1) j).m_tiler = (hget h j).m_tiler
    exact hget_tiler_preserve
      (show ((hget h i).moveTo p).1.m_tiler = (hget h i).m_tiler from rfl) j

/-! ## Failure cases leave the state untouched -/

theorem add_false_or (s : ListSt) (a : Option Nat) :
    add s a = (s, [], false) ∨ (add s a).2.2 = true := by
  cases a with
  | none => exact Or.inl rfl
  | some o =>
    by_cases hh : hasObj s (some o) = true
    · exact Or.inl (by simp [add, hh])
    · have hb : hasObj s (some o) = false := by
        cases hq : hasObj s (some o)
        · rfl
        · exact absurd hq hh
      cases hfst : s.m_first with
      | none => exact Or.inr (by simp [add, hb, hfst])
      | some f =>
        simp only [add, hb, Bool.false_eq_true, if_false, hfst]
        split
        · exact Or.inr rfl
        · exact Or.inl rfl

theorem insertObj_false_or (s : ListSt) (a : Option Nat) :
    insertObj s a = (s, [], false) ∨ (insertObj s a).2.2 = true := by
  cases a with
  | none => exact Or.inl rfl
  | some o =>
    by_cases hh : hasObj s (some o) = true
    · exact Or.inl (by simp [insertObj, hh])
    · have hb : hasObj s (some o) = false := by
        cases hq : hasObj s (some o)
        · rfl
        · exact absurd hq hh
      exact Or.inr (by simp [insertObj, hb])

theorem removeAux_false_or (h : Heap) (o : Nat) :
    ∀ (fuel p : Nat),
    removeAux h o fuel p = (h, [], false) ∨ (removeAux h o fuel p).2.2 = true := by
  intro fuel
  induction fuel with
  | zero => intro p; exact Or.inl rfl
  | succ f ih =>
    intro p
    cases hn : (hget h p).m_next with
    | none => exact Or.inl (by simp [removeAux, hn])
    | some q =>
      by_cases hq : q = o
      · exact Or.inr (by simp [removeAux, hn, hq])
      · have hred : removeAux h o (f + 1) p = removeAux h o f q := by
          simp [removeAux, hn, hq]
        rw [hred]
        exact ih q

theorem remove_false_or (s : ListSt) (a : Option Nat) :
    remove s a = (s, [], false) ∨ (remove s a).2.2 = true := by
  cases hf : s.m_first with
  | none => exact Or.inl (by cases a <;> simp [remove, hf])
  | some f =>
    cases a with
    | none => exact Or.inl (by simp [remove, hf])
    | some o =>
      by_cases hfo : o = f
      · exact Or.inr (by simp [remove, hf, hfo])
      · have hred : remove s (some o) =
            ({ s with heap := (removeAux s.heap o (s.heap.length + 1) f).1 },
             (removeAux s.heap o (s.heap.length + 1) f).2.1,
             (removeAux s.heap o (s.heap.length + 1) f).2.2) := by
          simp [remove, hf, hfo]
        rcases removeAux_false_or s.heap o (s.heap.length + 1) f with hl | hr
        · refine Or.inl ?_
          rw [hred, hl]
        · refine Or.inr ?_
          rw [hred]
          exact hr

/-! ## Preservation of the invariant -/

theorem keys_length (h : Heap) : (keys h).length = h.length := by
  simp [keys]

theorem chain_next_none_unique {h : Heap} :
    ∀ {st : Option Nat} {l : List Nat}, Chain h st l →
    ∀ j ∈ l, (hget h j).m_next = none → l.getLast? = some j := by
  intro st l
  induction l generalizing st with
  | nil => intro _ j hj; simp at hj
  | cons i rest ih =>
    intro hc j hj hn
    obtain ⟨hst, hrest⟩ := hc
    rcases List.mem_cons.mp hj with he | hm
    · subst he
      cases rest with
      | nil => rfl
      | cons q t =>
        rw [hn] at hrest
        exact absurd hrest.1 (by simp)
    · cases rest with
      | nil => simp at hm
      | cons q t =>
        rw [List.getLast?_cons_cons]
        exact ih hrest j hm hn

theorem add_WF {s : ListSt} {a : Option Nat} (hwf : WF s)
    (ha : ∀ o, a = some o → o ∈ keys s.heap) :
    WF (add s a).1 ∧ keys (add s a).1.heap = keys s.heap := by
  obtain ⟨l, hc, hnd, hsub⟩ := hwf
  cases a with
  | none => exact ⟨⟨l, hc, hnd, hsub⟩, rfl⟩
  | some o =>
    by_cases hol : o ∈ l
    · rw [add_not_added hc hnd hsub hol]
      exact ⟨⟨l, hc, hnd, hsub⟩, rfl⟩
    · obtain ⟨s', heq, hch, hkeys, _, _, _, _, _⟩ :=
        add_spec hc hnd hsub (ha o rfl) hol
      rw [heq]
      refine ⟨⟨l ++ [o], hch, ?_, ?_⟩, hkeys⟩
      · simp [List.nodup_append, hnd, hol]
      · intro k hk
        rw [hkeys]
        rcases List.mem_append.mp hk with hm | hm
        · exact hsub hm
        · simp only [List.mem_singleton] at hm
          exact hm ▸ ha o rfl

theorem insertObj_WF {s : ListSt} {a : Option Nat} (hwf : WF s)
    (ha : ∀ o, a = some o → o ∈ keys s.heap) :
    WF (insertObj s a).1 ∧ keys (insertObj s a).1.heap = keys s.heap := by
  obtain ⟨l, hc, hnd, hsub⟩ := hwf
  cases a with
  | none => exact ⟨⟨l, hc, hnd, hsub⟩, rfl⟩
  | some o =>
    by_cases hol : o ∈ l
    · rw [insertObj_not_added hc hnd hsub hol]
      exact ⟨⟨l, hc, hnd, hsub⟩, rfl⟩
    · obtain ⟨s', heq, _, hch, hkeys, _, _, _, _, _⟩ :=
        insertObj_spec hc hnd hsub (ha o rfl) hol
      rw [heq]
      refine ⟨⟨o :: l, hch, List.nodup_cons.mpr ⟨hol, hnd⟩, ?_⟩, hkeys⟩
      intro k hk
      rw [hkeys]
      rcases List.mem_cons.mp hk with he | hm
      · exact he ▸ ha o rfl
      · exact hsub hm

theorem remove_WF {s : ListSt} (a : Option Nat) (hwf : WF s) :
    WF (remove s a).1 ∧ keys (remove s a).1.heap = keys s.heap := by
  obtain ⟨l, hc, hnd, hsub⟩ := hwf
  cases a with
  | none =>
    rw [remove_none]
    exact ⟨⟨l, hc, hnd, hsub⟩, rfl⟩
  | some o =>
    by_cases hol : o ∈ l
    · obtain ⟨s', heq, hch, hkeys, _, _, _, _, _, _⟩ := remove_spec hc hnd hsub hol
      rw [heq]
      refine ⟨⟨l.erase o, hch, List.Nodup.erase o hnd, ?_⟩, hkeys⟩
      intro k hk
      rw [hkeys]
      exact hsub (List.erase_subset _ _ hk)
    · rw [remove_not_mem hc hol]
      exact ⟨⟨l, hc, hnd, hsub⟩, rfl⟩

theorem argOk_of_keys_eq {h h' : Heap} (hk : keys h' = keys h) {op : ListOp}
    (ha : argOk h op) : argOk h' op := by
  cases op with
  | addOp a =>
    cases a with
    | none => trivial
    | some o => show o ∈ keys h'; rw [hk]; exact ha
  | insertOp a =>
    cases a with
    | none => trivial
    | some o => show o ∈ keys h'; rw [hk]; exact ha
  | removeOp a => trivial

theorem applyOps_WF (ops : List ListOp) :
    ∀ (s : ListSt), WF s → (∀ op ∈ ops, argOk s.heap op) →
    WF (ops.foldl applyOp s) ∧ keys (ops.foldl applyOp s).heap = keys s.heap := by
  induction ops with
  | nil => intro s hwf _; exact ⟨hwf, rfl⟩
  | cons op rest ih =>
    intro s hwf hok
    have h1 : WF (applyOp s op) ∧ keys (applyOp s op).heap = keys s.heap := by
      cases op with
      | addOp a =>
        exact add_WF hwf (fun o h => by
          subst h; exact hok _ (List.mem_cons_self _ _))
      | insertOp a =>
        exact insertObj_WF hwf (fun o h => by
          subst h; exact hok _ (List.mem_cons_self _ _))
      | removeOp a => exact remove_WF a hwf
    have hr := ih (applyOp s op) h1.1 (fun op' hm =>
      argOk_of_keys_eq h1.2 (hok op' (List.mem_cons_of_mem _ hm)))
    rw [List.foldl_cons]
    exact ⟨hr.1, hr.2.trans h1.2⟩

/-! ## Shared helpers for the claims -/

theorem NanoPoint.point_eq_coords {a b : NanoPoint} : a = b ↔ a.x = b.x ∧ a.y = b.y := by
  cases a
  cases b
  simp

theorem NanoRect.rect_eq_coords {a b : NanoRect} : a = b ↔ a.p1 = b.p1 ∧ a.p2 = b.p2 := by
  cases a
  cases b
  simp

theorem drawOrder_eq {s : ListSt} {l : List Nat} (hc : Chain s.heap s.m_first l)
    (hnd : l.Nodup) (hsub : l ⊆ keys s.heap) : drawOrder s = l :=
  traverseAux_eq hc (le_trans (chain_length_le hnd hsub) (Nat.le_succ _))

theorem shr1_eq (a : lcdint_t) : shr1 a = a / 2 :=
  Int.fdiv_eq_ediv a (by omega)

theorem int_mid_bias (x1 x2 k : Int) (_hle : x1 ≤ x2) (hk : x2 - x1 = 2 * k + 1) :
    (x1 + x2) / 2 - x1 < x2 - (x1 + x2) / 2 := by omega

theorem wf_sEmpty : WF sEmpty := ⟨[], rfl, List.nodup_nil, List.nil_subset _⟩

theorem wf_sTwo : WF sTwo := ⟨[0, 1], ⟨rfl, rfl, rfl⟩, by decide, by decide⟩

/-! ## The claims -/

/-- C10: `has(nullptr)` returns false on every collection state, empty or
not: the scan compares each visited member against the null argument, never
matches, and falls off the end of the chain. -/
theorem claim_C10 (s : ListSt) : hasObj s none = false := hasObj_none s

/-- C4: `moveBy((dx,dy))` followed by `moveBy((-dx,-dy))` restores the
entity's footprint rectangle (both `p1` and `p2`) exactly. -/
theorem claim_C4 (o : NanoObject) (d : NanoPoint) :
    (((o.moveBy d).1).moveBy (-d)).1.m_rect = o.m_rect := by
  obtain ⟨⟨⟨x1, y1⟩, ⟨x2, y2⟩⟩, tl, nx⟩ := o
  obtain ⟨dx, dy⟩ := d
  simp only [NanoObject.moveBy, NanoObject.setPos, NanoRect.rect_eq_coords,
    NanoPoint.point_eq_coords, NanoPoint.add_x, NanoPoint.add_y, NanoPoint.neg_x,
    NanoPoint.neg_y]
  refine ⟨⟨?_, ?_⟩, ?_, ?_⟩ <;> ring

/-- C9: `resize(s)` followed by `setSize` back to the original size restores
`width()` and `height()` exactly; and `setSize` by itself emits no
`refreshWorld` call and mutates nothing but the footprint's `p2` corner
(`p1`, the invalidation target and the intrusive link are untouched). -/
theorem claim_C9 (o : NanoObject) (size : NanoPoint) :
    ((((o.resize size).1).setSizeOp ⟨o.width, o.height⟩).1.width = o.width ∧
     (((o.resize size).1).setSizeOp ⟨o.width, o.height⟩).1.height = o.height) ∧
    (∀ (q : NanoObject) (sz : NanoPoint),
      (q.setSizeOp sz).2 = [] ∧
      (q.setSizeOp sz).1.m_rect.p1 = q.m_rect.p1 ∧
      (q.setSizeOp sz).1.m_tiler = q.m_tiler ∧
      (q.setSizeOp sz).1.m_next = q.m_next) := by
  constructor
  · obtain ⟨⟨⟨x1, y1⟩, ⟨x2, y2⟩⟩, tl, nx⟩ := o
    simp only [NanoObject.resize, NanoObject.setSizeOp, NanoObject.setSize,
      NanoObject.width, NanoObject.height, NanoRect.width, NanoRect.height]
    constructor <;> ring
  · intro q sz
    exact ⟨rfl, rfl, rfl, rfl⟩

/-- C5: the derived accessors are pure reads (functions of the entity state
returning values, mutating nothing — each is determined by `m_rect` alone);
`center`/`top`/`bottom`/`left`/`right` compute midpoints as the arithmetic
shift `(p1 + p2) >> 1` (floor division by 2); and for a footprint whose
span `p2 - p1` is odd (an even pixel width) the computed midpoint lies
strictly closer to `p1` than to `p2`. -/
theorem claim_C5 (o : NanoObject) :
    (o.center = ⟨shr1 (o.m_rect.p1.x + o.m_rect.p2.x),
                 shr1 (o.m_rect.p1.y + o.m_rect.p2.y)⟩ ∧
     o.top = ⟨o.center.x, o.m_rect.p1.y⟩ ∧
     o.bottom = ⟨o.center.x, o.m_rect.p2.y⟩ ∧
     o.left = ⟨o.m_rect.p1.x, o.center.y⟩ ∧
     o.right = ⟨o.m_rect.p2.x, o.center.y⟩ ∧
     o.x = o.m_rect.p1.x ∧ o.y = o.m_rect.p1.y ∧
     o.getPosition = o.m_rect.p1 ∧ o.getRect = o.m_rect ∧
     o.width = o.m_rect.p2.x - o.m_rect.p1.x + 1 ∧
     o.height = o.m_rect.p2.y - o.m_rect.p1.y + 1) ∧
    (Odd (o.m_rect.p2.x - o.m_rect.p1.x) → o.m_rect.p1.x ≤ o.m_rect.p2.x →
      o.center.x - o.m_rect.p1.x < o.m_rect.p2.x - o.center.x) ∧
    (Odd (o.m_rect.p2.y - o.m_rect.p1.y) → o.m_rect.p1.y ≤ o.m_rect.p2.y →
      o.center.y - o.m_rect.p1.y < o.m_rect.p2.y - o.center.y) := by
  obtain ⟨⟨⟨x1, y1⟩, ⟨x2, y2⟩⟩, tl, nx⟩ := o
  refine ⟨⟨rfl, rfl, rfl, rfl, rfl, rfl, rfl, rfl, rfl, rfl, rfl⟩, ?_, ?_⟩
  · intro hodd hle
    obtain ⟨k, hk⟩ := hodd
    dsimp only at hle hk
    simp only [NanoObject.center, shr1_eq]
    exact int_mid_bias x1 x2 k hle hk
  · intro hodd hle
    obtain ⟨k, hk⟩ := hodd
    dsimp only at hle hk
    simp only [NanoObject.center, shr1_eq]
    exact int_mid_bias y1 y2 k hle hk

/-- Witness for C5 at a concrete footprint: the rect from `(0,0)` to
`(3,5)` has odd spans `3` and `5` in both axes, and its computed center
`(1,2)` is strictly closer to `p1` than to `p2`. -/
theorem claim_C5_witness :
    (Odd ((3 : lcdint_t) - 0) ∧ (0 : lcdint_t) ≤ 3 ∧
     Odd ((5 : lcdint_t) - 0) ∧ (0 : lcdint_t) ≤ 5) ∧
    ((⟨⟨⟨0, 0⟩, ⟨3, 5⟩⟩, none, none⟩ : NanoObject).center.x - 0 < 3 -
      (⟨⟨⟨0, 0⟩, ⟨3, 5⟩⟩, none, none⟩ : NanoObject).center.x) ∧
    ((⟨⟨⟨0, 0⟩, ⟨3, 5⟩⟩, none, none⟩ : NanoObject).center.y - 0 < 5 -
      (⟨⟨⟨0, 0⟩, ⟨3, 5⟩⟩, none, none⟩ : NanoObject).center.y) :=
  ⟨⟨by decide, by decide, by decide, by decide⟩,
   (claim_C5 ⟨⟨⟨0, 0⟩, ⟨3, 5⟩⟩, none, none⟩).2.1 (by decide) (by decide),
   (claim_C5 ⟨⟨⟨0, 0⟩, ⟨3, 5⟩⟩, none, none⟩).2.2 (by decide) (by decide)⟩

/-- C3: whenever `add`, `insert` or `remove` returns false, the entire
observable state is unchanged — the collection (heap, member chain, target,
geometry) is exactly the pre-state, which in particular leaves the argument
entity's `m_next` and `m_tiler` untouched — and no `refreshWorld` call is
emitted. -/
theorem claim_C3 (s : ListSt) (a : Option Nat) :
    ((add s a).2.2 = false → (add s a).1 = s ∧ (add s a).2.1 = []) ∧
    ((insertObj s a).2.2 = false → (insertObj s a).1 = s ∧ (insertObj s a).2.1 = []) ∧
    ((remove s a).2.2 = false → (remove s a).1 = s ∧ (remove s a).2.1 = []) := by
  refine ⟨?_, ?_, ?_⟩ <;> intro hf
  · rcases add_false_or s a with he | ht
    · rw [he]
      exact ⟨rfl, rfl⟩
    · rw [hf] at ht
      simp at ht
  · rcases insertObj_false_or s a with he | ht
    · rw [he]
      exact ⟨rfl, rfl⟩
    · rw [hf] at ht
      simp at ht
  · rcases remove_false_or s a with he | ht
    · rw [he]
      exact ⟨rfl, rfl⟩
    · rw [hf] at ht
      simp at ht

/-- Witness for C3: on the concrete two-member collection, `add` of the
already-present member 0, `insert` of the already-present member 1, and
`remove` of the absent member 2 all return false, leave the state equal to
the pre-state and emit no `refreshWorld` call. -/
theorem claim_C3_witness :
    ((add sTwo (some 0)).2.2 = false ∧ (add sTwo (some 0)).1 = sTwo ∧
      (add sTwo (some 0)).2.1 = []) ∧
    ((insertObj sTwo (some 1)).2.2 = false ∧ (insertObj sTwo (some 1)).1 = sTwo ∧
      (insertObj sTwo (some 1)).2.1 = []) ∧
    ((remove sTwo (some 2)).2.2 = false ∧ (remove sTwo (some 2)).1 = sTwo ∧
      (remove sTwo (some 2)).2.1 = []) :=
  ⟨⟨by decide, (claim_C3 sTwo (some 0)).1 (by decide)⟩,
   ⟨by decide, (claim_C3 sTwo (some 1)).2.1 (by decide)⟩,
   ⟨by decide, (claim_C3 sTwo (some 2)).2.2 (by decide)⟩⟩

/-- C2: starting from a collection with no members, any finite sequence of
`add` / `insert` / `remove` operations (each non-null `add`/`insert`
argument being a live object) keeps the member chain reachable from
`m_first` a finite, acyclic list of pairwise-distinct identifiers — no
entity ever appears twice. Since every prefix of such a sequence is itself
such a sequence, the invariant holds after every operation. -/
theorem claim_C2 (ops : List ListOp) (s0 : ListSt) (h0 : s0.m_first = none)
    (hargs : ∀ op ∈ ops, argOk s0.heap op) :
    WF (ops.foldl applyOp s0) :=
  (applyOps_WF ops s0 ⟨[], h0, List.nodup_nil, List.nil_subset _⟩ hargs).1

/-- Witness for C2: from the concrete empty collection, run
`add 0; add 1; insert 0 (fails, duplicate); remove 0; remove 1; remove 1
(fails, absent)` — the final state is well-formed. -/
theorem claim_C2_witness :
    sEmpty.m_first = none ∧
    (∀ op ∈ [ListOp.addOp (some 0), ListOp.addOp (some 1),
      ListOp.insertOp (some 0), ListOp.removeOp (some 0),
      ListOp.removeOp (some 1), ListOp.removeOp (some 1)], argOk sEmpty.heap op) ∧
    WF ([ListOp.addOp (some 0), ListOp.addOp (some 1),
      ListOp.insertOp (some 0), ListOp.removeOp (some 0),
      ListOp.removeOp (some 1), ListOp.removeOp (some 1)].foldl applyOp sEmpty) :=
  ⟨rfl,
   by
    intro op hm
    rcases List.mem_cons.mp hm with rfl | hm
    · exact (by decide : (0 : Nat) ∈ keys sEmpty.heap)
    rcases List.mem_cons.mp hm with rfl | hm
    · exact (by decide : (1 : Nat) ∈ keys sEmpty.heap)
    rcases List.mem_cons.mp hm with rfl | hm
    · exact (by decide : (0 : Nat) ∈ keys sEmpty.heap)
    rcases List.mem_cons.mp hm with rfl | hm
    · trivial
    rcases List.mem_cons.mp hm with rfl | hm
    · trivial
    rcases List.mem_cons.mp hm with rfl | hm
    · trivial
    simp at hm,
   claim_C2 _ sEmpty rfl (by
    intro op hm
    rcases List.mem_cons.mp hm with rfl | hm
    · exact (by decide : (0 : Nat) ∈ keys sEmpty.heap)
    rcases List.mem_cons.mp hm with rfl | hm
    · exact (by decide : (1 : Nat) ∈ keys sEmpty.heap)
    rcases List.mem_cons.mp hm with rfl | hm
    · exact (by decide : (0 : Nat) ∈ keys sEmpty.heap)
    rcases List.mem_cons.mp hm with rfl | hm
    · trivial
    rcases List.mem_cons.mp hm with rfl | hm
    · trivial
    rcases List.mem_cons.mp hm with rfl | hm
    · trivial
    simp at hm)⟩

theorem chain_getLast_next_none {h : Heap} :
    ∀ {st : Option Nat} {l : List Nat}, Chain h st l → ∀ {la : Nat},
    l.getLast? = some la → (hget h la).m_next = none := by
  intro st l
  induction l generalizing st with
  | nil => intro _ la hla; simp at hla
  | cons i rest ih =>
    intro hc la hla
    obtain ⟨hst, hrest⟩ := hc
    cases rest with
    | nil =>
      have hia : i = la := by simpa using hla
      exact hia ▸ hrest
    | cons q t =>
      rw [List.getLast?_cons_cons] at hla
      exact ih hrest hla

/-- C7: a successful `insert(B)` prepends B at `m_first`, so the subsequent
`draw`/`update` traversal (head-to-tail) visits B before every member that
was present before; dually a successful `add` appends at the tail, so the
added entity is visited last (drawn on top). -/
theorem claim_C7 {s : ListSt} {o : Nat} (hwf : WF s) (ho : o ∈ keys s.heap) :
    ((insertObj s (some o)).2.2 = true →
      drawOrder (insertObj s (some o)).1 = o :: drawOrder s) ∧
    ((add s (some o)).2.2 = true →
      drawOrder (add s (some o)).1 = drawOrder s ++ [o]) := by
  obtain ⟨l, hc, hnd, hsub⟩ := hwf
  have hdo : drawOrder s = l := drawOrder_eq hc hnd hsub
  by_cases hol : o ∈ l
  · constructor
    · intro ht
      rw [insertObj_not_added hc hnd hsub hol] at ht
      simp at ht
    · intro ht
      rw [add_not_added hc hnd hsub hol] at ht
      simp at ht
  · constructor
    · intro _
      obtain ⟨s', heq, _, hch, hkeys, _, _, _, _, _⟩ :=
        insertObj_spec hc hnd hsub ho hol
      rw [heq, hdo]
      show drawOrder s' = o :: l
      refine drawOrder_eq hch (List.nodup_cons.mpr ⟨hol, hnd⟩) ?_
      intro k hk
      rw [hkeys]
      rcases List.mem_cons.mp hk with he | hm
      · exact he ▸ ho
      · exact hsub hm
    · intro _
      obtain ⟨s', heq, hch, hkeys, _, _, _, _, _⟩ := add_spec hc hnd hsub ho hol
      rw [heq, hdo]
      show drawOrder s' = l ++ [o]
      refine drawOrder_eq hch (by simp [List.nodup_append, hnd, hol]) ?_
      intro k hk
      rw [hkeys]
      rcases List.mem_append.mp hk with hm | hm
      · exact hsub hm
      · simp only [List.mem_singleton] at hm
        exact hm ▸ ho

/-- Witness for C7: inserting the detached object 2 into the concrete
two-member collection places it first in the traversal order; adding it
instead places it last. -/
theorem claim_C7_witness :
    (insertObj sTwo (some 2)).2.2 = true ∧
    drawOrder (insertObj sTwo (some 2)).1 = 2 :: drawOrder sTwo ∧
    (add sTwo (some 2)).2.2 = true ∧
    drawOrder (add sTwo (some 2)).1 = drawOrder sTwo ++ [2] :=
  ⟨by decide,
   (claim_C7 wf_sTwo (by decide)).1 (by decide),
   by decide,
   (claim_C7 wf_sTwo (by decide)).2 (by decide)⟩

/-- C8: `getPrev(nullptr)` returns the last member of the chain — on an
empty collection it returns null, and on a non-empty one it returns the
unique member whose `m_next` link is null, the final entry of the
traversal order. -/
theorem claim_C8 {s : ListSt} (hwf : WF s) :
    getPrev s none = (drawOrder s).getLast? ∧
    (s.m_first = none → getPrev s none = none) ∧
    (s.m_first ≠ none → ∃ la, getPrev s none = some la ∧ la ∈ drawOrder s ∧
      (hget s.heap la).m_next = none ∧
      ∀ j ∈ drawOrder s, (hget s.heap j).m_next = none → j = la) := by
  obtain ⟨l, hc, hnd, hsub⟩ := hwf
  have hdo : drawOrder s = l := drawOrder_eq hc hnd hsub
  have hgp : getPrev s none = l.getLast? :=
    getPrevAux_none_eq hc (le_trans (chain_length_le hnd hsub) (Nat.le_succ _))
  refine ⟨by rw [hgp, hdo], ?_, ?_⟩
  · intro hf
    cases l with
    | nil => rw [hgp]; rfl
    | cons a r =>
      rw [hf] at hc
      exact absurd hc.1 (by simp)
  · intro hf
    cases hl : l with
    | nil =>
      rw [hl] at hc
      exact absurd hc hf
    | cons f rest =>
      subst hl
      obtain ⟨la, hla⟩ : ∃ la, (f :: rest).getLast? = some la := by
        cases hq : (f :: rest).getLast? with
        | some la => exact ⟨la, rfl⟩
        | none => exact absurd (List.getLast?_eq_none_iff.mp hq) (by simp)
      refine ⟨la, by rw [hgp, hla], ?_, chain_getLast_next_none hc hla, ?_⟩
      · rw [hdo]
        exact List.mem_of_mem_getLast? (by simp [hla])
      · intro j hj hn
        rw [hdo] at hj
        have huniq := chain_next_none_unique hc j hj hn
        rw [hla] at huniq
        exact (Option.some.inj huniq).symm

/-- Witness for C8: on the concrete two-member collection `getPrev(null)`
returns member 1 (the unique member with a null link); on the concrete
empty collection it returns null. -/
theorem claim_C8_witness :
    getPrev sTwo none = (drawOrder sTwo).getLast? ∧
    (sEmpty.m_first = none ∧ getPrev sEmpty none = none) ∧
    (sTwo.m_first ≠ none ∧ ∃ la, getPrev sTwo none = some la ∧
      la ∈ drawOrder sTwo ∧ (hget sTwo.heap la).m_next = none ∧
      ∀ j ∈ drawOrder sTwo, (hget sTwo.heap j).m_next = none → j = la) :=
  ⟨(claim_C8 wf_sTwo).1,
   ⟨rfl, (claim_C8 wf_sEmpty).2.1 rfl⟩,
   ⟨by decide, (claim_C8 wf_sTwo).2.2 (by decide)⟩⟩

/-- C6: the collection's `refresh()` visits members in head-to-tail order
(the emitted trace lists each member's rectangle in traversal order), for
each member first sets that member's invalidation target to the
collection's own current target and then calls the member's `refresh()`
(so each emitted call goes to the collection's target, not the member's
stale one), and afterwards every member's invalidation target equals the
collection's target. The membership chain itself is unchanged. -/
theorem claim_C6 {s : ListSt} (hwf : WF s) :
    (listRefresh s).1.m_first = s.m_first ∧
    (listRefresh s).1.m_tiler = s.m_tiler ∧
    (listRefresh s).2 = chainTrace s.m_tiler s.heap (drawOrder s) ∧
    (∀ i ∈ drawOrder s, (hget (listRefresh s).1.heap i).m_tiler = s.m_tiler) ∧
    drawOrder (listRefresh s).1 = drawOrder s := by
  obtain ⟨l, hc, hnd, hsub⟩ := hwf
  have hdo : drawOrder s = l := drawOrder_eq hc hnd hsub
  obtain ⟨h', heq, hch', hkeys', htil', hrect', hnext', hunt'⟩ :=
    listRefreshAux_spec s.m_tiler hc hnd hsub
      (show l.length ≤ fuelOf s from
        le_trans (chain_length_le hnd hsub) (Nat.le_succ _))
  have hlr : listRefresh s = ({ s with heap := h' }, chainTrace s.m_tiler s.heap l) := by
    simp only [listRefresh]
    rw [heq]
  refine ⟨by rw [hlr], by rw [hlr], by rw [hlr, hdo], ?_, ?_⟩
  · intro i hi
    rw [hlr]
    show (hget h' i).m_tiler = s.m_tiler
    exact htil' i (hdo ▸ hi)
  · rw [hlr, hdo]
    show drawOrder { s with heap := h' } = l
    refine drawOrder_eq hch' hnd ?_
    show l ⊆ keys h'
    rw [hkeys']
    exact hsub

/-- Witness for C6: refreshing the concrete two-member collection leaves
the chain `[0, 1]` in place, emits `refreshWorld` on target 7 with both
member rectangles in order, and resynchronizes both members' targets. -/
theorem claim_C6_witness :
    (listRefresh sTwo).1.m_first = sTwo.m_first ∧
    (listRefresh sTwo).1.m_tiler = sTwo.m_tiler ∧
    (listRefresh sTwo).2 = chainTrace sTwo.m_tiler sTwo.heap (drawOrder sTwo) ∧
    (∀ i ∈ drawOrder sTwo,
      (hget (listRefresh sTwo).1.heap i).m_tiler = sTwo.m_tiler) ∧
    drawOrder (listRefresh sTwo).1 = drawOrder sTwo :=
  claim_C6 wf_sTwo

/-- C1: on a well-formed collection attached to target `T`, a successful
`add(A)` (where A's footprint is `R0`) emits exactly one call
`T.refreshWorld(R0)`; a following `A.moveTo(p)` emits exactly two calls,
`refreshWorld(R0)` then `refreshWorld(R1)` with `R1` the footprint after
the move; a following `remove(A)` succeeds, emits exactly one call
`refreshWorld(R1)`, and afterwards A's invalidation target (and its
intrusive link) is null. -/
theorem claim_C1 {s : ListSt} {A T : Nat} {p : NanoPoint} (hwf : WF s)
    (hT : s.m_tiler = some T) (hA : A ∈ keys s.heap)
    (hsucc : (add s (some A)).2.2 = true) :
    (add s (some A)).2.1 = [(T, (hget s.heap A).m_rect)] ∧
    (heapMoveTo (add s (some A)).1.heap A p).2
      = [(T, (hget s.heap A).m_rect), (T, ((hget s.heap A).setPos p).m_rect)] ∧
    (remove { (add s (some A)).1 with
        heap := (heapMoveTo (add s (some A)).1.heap A p).1 } (some A)).2.2 = true ∧
    (remove { (add s (some A)).1 with
        heap := (heapMoveTo (add s (some A)).1.heap A p).1 } (some A)).2.1
      = [(T, ((hget s.heap A).setPos p).m_rect)] ∧
    (hget (remove { (add s (some A)).1 with
        heap := (heapMoveTo (add s (some A)).1.heap A p).1 } (some A)).1.heap
      A).m_tiler = none ∧
    (hget (remove { (add s (some A)).1 with
        heap := (heapMoveTo (add s (some A)).1.heap A p).1 } (some A)).1.heap
      A).m_next = none := by
  obtain ⟨l, hc, hnd, hsub⟩ := hwf
  by_cases hol : A ∈ l
  · rw [add_not_added hc hnd hsub hol] at hsucc
    simp at hsucc
  obtain ⟨s1, heq1, hch1, hkeys1, htiler1, hrect1, hgA1, hrall1, htall1⟩ :=
    add_spec hc hnd hsub hA hol
  rw [heq1]
  have hA1 : A ∈ keys s1.heap := by rw [hkeys1]; exact hA
  obtain ⟨hm2, hmA, hmkeys, hmne, hmnext, hmtiler⟩ := heapMoveTo_spec hA1 p
  have hnd1 : (l ++ [A]).Nodup := by simp [List.nodup_append, hnd, hol]
  have hch2 : Chain (heapMoveTo s1.heap A p).1 s1.m_first (l ++ [A]) :=
    chain_congr_next (fun j _ => hmnext j) hch1
  have hsub2 : l ++ [A] ⊆ keys (heapMoveTo s1.heap A p).1 := by
    rw [hmkeys, hkeys1]
    intro k hk
    rcases List.mem_append.mp hk with hm | hm
    · exact hsub hm
    · simp only [List.mem_singleton] at hm
      exact hm ▸ hA
  have hmemA : A ∈ l ++ [A] := List.mem_append.mpr (Or.inr (List.mem_singleton.mpr rfl))
  obtain ⟨s3, heq3, hch3, hkeys3, _, _, hnx3, htl3, _, _⟩ :=
    remove_spec (s := { s1 with heap := (heapMoveTo s1.heap A p).1 }) hch2 hnd1
      hsub2 hmemA
  refine ⟨?_, ?_, ?_, ?_, ?_, ?_⟩
  · show NanoObject.refreshCalls ⟨(hget s.heap A).m_rect, s.m_tiler, none⟩
        = [(T, (hget s.heap A).m_rect)]
    rw [hT]
    rfl
  · show (heapMoveTo s1.heap A p).2 = _
    rw [hm2, hgA1, hT]
    rfl
  · show (remove { s1 with heap := (heapMoveTo s1.heap A p).1 } (some A)).2.2 = true
    rw [heq3]
  · show (remove { s1 with heap := (heapMoveTo s1.heap A p).1 } (some A)).2.1
        = [(T, ((hget s.heap A).setPos p).m_rect)]
    rw [heq3]
    show refreshAt (heapMoveTo s1.heap A p).1 A = _
    simp only [refreshAt]
    rw [hmA, hgA1, hT]
    rfl
  · show (hget (remove { s1 with heap := (heapMoveTo s1.heap A p).1 }
        (some A)).1.heap A).m_tiler = none
    rw [heq3]
    exact htl3
  · show (hget (remove { s1 with heap := (heapMoveTo s1.heap A p).1 }
        (some A)).1.heap A).m_next = none
    rw [heq3]
    exact hnx3

/-- Witness for C1: on the concrete empty collection (target 7), adding
object 0 with footprint `(1,2)-(3,4)` emits one refresh of that rect;
moving it to `(10, 20)` emits the old rect then the new rect
`(10,20)-(12,22)`; removing it emits the new rect once and nulls its
target and link. -/
theorem claim_C1_witness :
    WF sEmpty ∧ sEmpty.m_tiler = some 7 ∧ (0 : Nat) ∈ keys sEmpty.heap ∧
    (add sEmpty (some 0)).2.2 = true ∧
    (add sEmpty (some 0)).2.1 = [(7, ⟨⟨1, 2⟩, ⟨3, 4⟩⟩)] ∧
    (heapMoveTo (add sEmpty (some 0)).1.heap 0 ⟨10, 20⟩).2
      = [(7, ⟨⟨1, 2⟩, ⟨3, 4⟩⟩), (7, ⟨⟨10, 20⟩, ⟨12, 22⟩⟩)] ∧
    (remove { (add sEmpty (some 0)).1 with
        heap := (heapMoveTo (add sEmpty (some 0)).1.heap 0 ⟨10, 20⟩).1 }
      (some 0)).2.1 = [(7, ⟨⟨10, 20⟩, ⟨12, 22⟩⟩)] ∧
    (hget (remove { (add sEmpty (some 0)).1 with
        heap := (heapMoveTo (add sEmpty (some 0)).1.heap 0 ⟨10, 20⟩).1 }
      (some 0)).1.heap 0).m_tiler = none :=
  ⟨wf_sEmpty, rfl, by decide, by decide,
   by
    have h := claim_C1 (A := 0) (p := ⟨10, 20⟩) wf_sEmpty rfl (by decide) (by decide)
    exact h.1.trans (by decide),
   by
    have h := claim_C1 (A := 0) (p := ⟨10, 20⟩) wf_sEmpty rfl (by decide) (by decide)
    exact h.2.1.trans (by decide),
   by
    have h := claim_C1 (A := 0) (p := ⟨10, 20⟩) wf_sEmpty rfl (by decide) (by decide)
    exact h.2.2.2.1.trans (by decide),
   by
    have h := claim_C1 (A := 0) (p := ⟨10, 20⟩) wf_sEmpty rfl (by decide) (by decide)
    exact h.2.2.2.2.1⟩
